import Mathlib

/-!
Verification of the ShinyQuota / Navigator core of the pokebot-prof-oak
repository.

The definitions below are shallow embeddings of the Python functions in
`plugins/ProfOak/shiny_quota.py`, `plugins/shiny_quota.py` and
`plugins/ProfOak/navigator.py`.  Python sets of species names are modelled
as `Finset String`, JSON list buckets as `List String`, dictionaries keyed
by strings as total functions defaulting to the empty bucket (Python code
always reads them with `.get(key, default)`), and module-level
configuration constants as Lean constants with the values they have in the
source.
-/

/-- Configuration constant `PREFER_ROM_WHEN_AVAILABLE` of
`plugins/ProfOak/shiny_quota.py` (line 44). -/
def PREFER_ROM_WHEN_AVAILABLE : Bool := true

/-- Configuration constant `PRUNE_LEARNED_WITH_ROM` of
`plugins/ProfOak/shiny_quota.py` (line 45). -/
def PRUNE_LEARNED_WITH_ROM : Bool := true

/-- Configuration constant `ON_QUOTA` of `plugins/ProfOak/shiny_quota.py`
(line 47). -/
def ON_QUOTA : String := "TEST"

/-- Configuration constant `PAUSE_ACTION` of `plugins/shiny_quota.py`
(line 41). -/
def PAUSE_ACTION : String := "navigate"

/-- `UNOWN_FORMS` of `plugins/ProfOak/shiny_quota.py` (line 53):
the letters A..Z. -/
def UNOWN_FORMS : List String :=
  (List.range 26).map (fun i => String.mk [Char.ofNat (65 + i)])

/-- Executable model of Python `str.upper()` (ASCII). -/
def strUpper (s : String) : String := String.mk (s.data.map Char.toUpper)

/-- Executable model of Python `str.strip()`. -/
def strStrip (s : String) : String :=
  String.mk (((s.data.dropWhile Char.isWhitespace).reverse.dropWhile
    Char.isWhitespace).reverse)

/-- Executable model of Python `str.startswith(pre)`. -/
def strStartsWith (s pre : String) : Bool := pre.data.isPrefixOf s.data

/-- Embedding of `_normalize_method` (`plugins/ProfOak/shiny_quota.py`,
lines 97-105).  `none` models Python `None`; the Python guard `if not m`
is also taken by the empty string. -/
def normalize_method (m : Option String) : String :=
  match m with
  | none => "GRASS"
  | some s =>
    if s = "" then "GRASS"
    else
      let n := strUpper (strStrip s)
      if n = "GRASS" ∨ n = "LAND" ∨ n = "WALKING" ∨ n = "OVERWORLD" then "GRASS"
      else if n = "SURF" ∨ n = "WATER" then "SURF"
      else if n = "ROCKSMASH" ∨ n = "ROCK_SMASH" ∨ n = "SMASH" then "ROCK_SMASH"
      else if n = "FISH" ∨ n = "FISHING" ∨ n = "ROD" ∨ n = "OLD_ROD" ∨
              n = "GOOD_ROD" ∨ n = "SUPER_ROD" then "ROD"
      else "GRASS"

/-- All method names `_normalize_method` recognises (union of the
alternatives tested in its `if` chain). -/
def recognizedMethodNames : List String :=
  ["GRASS", "LAND", "WALKING", "OVERWORLD", "SURF", "WATER",
   "ROCKSMASH", "ROCK_SMASH", "SMASH",
   "FISH", "FISHING", "ROD", "OLD_ROD", "GOOD_ROD", "SUPER_ROD"]

/-- The four canonical method tags. -/
def canonicalMethodTags : List String := ["GRASS", "SURF", "ROD", "ROCK_SMASH"]

/-- C10: `_normalize_method` is total and closed over the canonical tags:
every input (including `None`, the empty string and unrecognized mode
names) is mapped into {GRASS, SURF, ROD, ROCK_SMASH}, `None` maps to
GRASS, and any input whose normalized form is unrecognized maps to
GRASS. -/
theorem normalize_method_total_and_closed (m : Option String) :
    normalize_method m ∈ canonicalMethodTags ∧
    normalize_method none = "GRASS" ∧
    (∀ s : String, strUpper (strStrip s) ∉ recognizedMethodNames →
      normalize_method (some s) = "GRASS") := by
  refine ⟨?_, rfl, ?_⟩
  · cases m with
    | none => simp [normalize_method, canonicalMethodTags]
    | some s =>
      simp only [normalize_method, canonicalMethodTags]
      split
      · simp
      · split
        · simp
        · split
          · simp
          · split
            · simp
            · split
              · simp
              · simp
  · intro s hs
    simp only [normalize_method]
    split
    · rfl
    · split
      · exact absurd (show strUpper (strStrip s) ∈ recognizedMethodNames by
          simp only [recognizedMethodNames, List.mem_cons]; tauto) hs
      · split
        · exact absurd (show strUpper (strStrip s) ∈ recognizedMethodNames by
            simp only [recognizedMethodNames, List.mem_cons]; tauto) hs
        · split
          · exact absurd (show strUpper (strStrip s) ∈ recognizedMethodNames by
              simp only [recognizedMethodNames, List.mem_cons]; tauto) hs
          · split
            · exact absurd (show strUpper (strStrip s) ∈ recognizedMethodNames by
                simp only [recognizedMethodNames, List.mem_cons]; tauto) hs
            · rfl

/-- Witness for the hypothesis-bearing part of
`normalize_method_total_and_closed`: the ("Spin"-like) unrecognized mode
name "Spin" maps to GRASS. -/
theorem normalize_method_total_and_closed_witness :
    strUpper (strStrip "Spin") ∉ recognizedMethodNames ∧
    normalize_method (some "Spin") = "GRASS" :=
  ⟨by decide,
   (normalize_method_total_and_closed (some "Spin")).2.2 "Spin" (by decide)⟩

/-!  Requirement-source selection (`_rebuild_route_requirements`,
`plugins/ProfOak/shiny_quota.py` lines 485-528). -/

/-- The provenance tag computed by `_rebuild_route_requirements`. -/
inductive ReqSource
  | ROM
  | STATIC
  | LEARNED
  | EMPTY
deriving DecidableEq

/-- Embedding of the source-selection chain of
`_rebuild_route_requirements` (lines 509-519).  `romRead = none` models a
ROM that could not be read (`_species_from_rom_for_current` returned
`None`); `some s` models a readable ROM table, where `s` may be empty. -/
def selectRequirements (romRead : Option (Finset String))
    (staticSet learnedSet : Finset String) : Finset String × ReqSource :=
  if PREFER_ROM_WHEN_AVAILABLE && romRead.isSome then (romRead.getD ∅, .ROM)
  else if staticSet.Nonempty then (staticSet, .STATIC)
  else if learnedSet.Nonempty then (learnedSet, .LEARNED)
  else (∅, .EMPTY)

/-- Embedding of `_expand_unown_if_needed`
(`plugins/ProfOak/shiny_quota.py` lines 451-457); `letters` is the result
of `_unown_letters_for_current_map`. -/
def expandUnownIfNeeded (livingdex : Bool) (letters : Finset String)
    (s : Finset String) : Finset String :=
  if !livingdex then s
  else if "UNOWN" ∉ s then s
  else (s.erase "UNOWN") ∪ letters.image (fun l => "UNOWN-" ++ l)

/-- C1: authoritative precedence.  If the ROM encounter table is readable
and reports an empty species set (`romRead = some ∅`), the selection of
`_rebuild_route_requirements` is the empty set with source ROM regardless
of any non-empty static-table or learned-store data, and the final
`required_species_route` (after Unown expansion) is empty as well. -/
theorem authoritative_empty_set_wins (staticSet learnedSet letters : Finset String)
    (living : Bool) :
    selectRequirements (some ∅) staticSet learnedSet = (∅, ReqSource.ROM) ∧
    expandUnownIfNeeded living letters
      (selectRequirements (some ∅) staticSet learnedSet).1 = ∅ := by
  have hsel : selectRequirements (some ∅) staticSet learnedSet = (∅, ReqSource.ROM) := by
    simp [selectRequirements, PREFER_ROM_WHEN_AVAILABLE]
  refine ⟨hsel, ?_⟩
  rw [hsel]
  simp [expandUnownIfNeeded]

/-!  Family requirement entries and living-dex coverage
(`plugins/shiny_quota.py`). -/

/-- An entry of `required_families_current` in `plugins/shiny_quota.py`:
`{"rep": str, "need": int, "members": set[str]}`. -/
structure FamilyEntry where
  rep : String
  members : Finset String
  need : Nat

/-- Embedding of `_covered_for_entry` (`plugins/shiny_quota.py`
lines 472-484).  In living-dex mode it counts copies across the whole
family; in standard mode any member present counts as 1. -/
def coveredForEntry (livingdex : Bool) (ownedCounts : String → Nat)
    (e : FamilyEntry) : Nat :=
  if livingdex then e.members.sum ownedCounts
  else if 0 < e.members.sum ownedCounts then 1 else 0

/-- Embedding of the deficit computation of `_maybe_pause_if_quota_met`
(`plugins/shiny_quota.py` lines 511-514): entries whose coverage is
strictly below `need`, listed as (rep, remaining). -/
def deficitsOf (livingdex : Bool) (owned : String → Nat)
    (entries : List FamilyEntry) : List (String × Nat) :=
  entries.filterMap (fun e =>
    if coveredForEntry livingdex owned e < e.need then
      some (e.rep, e.need - coveredForEntry livingdex owned e)
    else none)

/-- The owned-count table of the C2 scenario: A:2, B:0, C:1. -/
def ownedABC : String → Nat :=
  fun s => if s = "A" then 2 else if s = "C" then 1 else 0

/-- The requirement entry of the C2 scenario: members {A, B, C},
need 3 (living-dex). -/
def entryABC : FamilyEntry := ⟨"A", {"A", "B", "C"}, 3⟩

/-- C2 counterexample: with members {A, B, C}, need 3, owned counts
A:2 / B:0 / C:1, `_covered_for_entry` in living-dex mode sums copies
across the family (2+0+1 = 3), so no deficit at all is reported — B's
missing copy is masked by A's surplus, contrary to the claim. -/
theorem livingdex_surplus_masks_missing_sibling :
    ownedABC "B" = 0 ∧ entryABC.need = 3 ∧
    coveredForEntry true ownedABC entryABC = 3 ∧
    deficitsOf true ownedABC [entryABC] = [] := by
  refine ⟨rfl, rfl, ?_, ?_⟩ <;> decide

/-- C2 amended: in living-dex mode the coverage of an entry is the total
of owned copies summed over all family members (with no per-member cap),
and an entry is reported as a deficit exactly when that total is strictly
below `need` — so a surplus of one member can offset a missing sibling. -/
theorem livingdex_deficit_by_family_total (owned : String → Nat) (e : FamilyEntry) :
    coveredForEntry true owned e = e.members.sum owned ∧
    deficitsOf true owned [e] =
      (if e.members.sum owned < e.need then
        [(e.rep, e.need - e.members.sum owned)] else []) := by
  constructor
  · simp [coveredForEntry]
  · simp only [deficitsOf, List.filterMap, coveredForEntry, if_true]
    split <;> simp_all [coveredForEntry]

/-!  Learned store and `_commit_learn` (`plugins/ProfOak/shiny_quota.py`
lines 393-403). -/

/-- The learned store `self.learned`: map key → method → species bucket.
Python reads absent keys as empty (`.get(..., [])` / `setdefault`), so a
total function with default `[]` is the faithful model. -/
def Learned : Type := String → String → List String

/-- `sorted(set(xs))`: the sorted duplicate-free list of `xs`. -/
def sortedSpeciesSet (xs : List String) : List String :=
  List.insertionSort (fun a b => a ≤ b) xs.dedup

/-- Point update of a learned store (`per_map[method] = ...`). -/
def updateLearned (L : Learned) (mapKey method : String)
    (bucket : List String) : Learned :=
  fun k m => if k = mapKey ∧ m = method then bucket else L k m

/-- Embedding of `_commit_learn` (`plugins/ProfOak/shiny_quota.py`
lines 393-403): no-op on empty map key or species (the Python guard
`if not self.current_map_key or not species: return`); otherwise an
idempotent insert `per_map[method] = sorted(set(per_map.get(method, [])) ∪
{species})`, performed only when the species is new. -/
def commit_learn (L : Learned) (mapKey method species : String) : Learned :=
  if mapKey = "" ∨ species = "" then L
  else
    let cur := L mapKey method
    if species ∈ cur then L
    else updateLearned L mapKey method (sortedSpeciesSet (species :: cur))

theorem sortedSpeciesSet_perm (xs : List String) :
    (sortedSpeciesSet xs).Perm xs.dedup :=
  List.perm_insertionSort _ _

theorem mem_sortedSpeciesSet {x : String} {xs : List String} :
    x ∈ sortedSpeciesSet xs ↔ x ∈ xs := by
  rw [(sortedSpeciesSet_perm xs).mem_iff, List.mem_dedup]

theorem nodup_sortedSpeciesSet (xs : List String) :
    (sortedSpeciesSet xs).Nodup :=
  ((sortedSpeciesSet_perm xs).nodup_iff).mpr (List.nodup_dedup xs)

/-- C6: learning is idempotent.  For any non-degenerate map key and
species, committing the same species twice leaves the learned store in
exactly the state produced by committing it once, and after one commit
the species appears exactly once in the map+method bucket. -/
theorem commit_learn_idempotent (L : Learned) (k m s : String)
    (hk : k ≠ "") (hs : s ≠ "") (hnd : (L k m).Nodup) :
    commit_learn (commit_learn L k m s) k m s = commit_learn L k m s ∧
    ((commit_learn L k m s) k m).count s = 1 := by
  have hguard : ¬(k = "" ∨ s = "") := by
    rintro (h | h) <;> [exact hk h; exact hs h]
  by_cases hmem : s ∈ L k m
  · have h1 : commit_learn L k m s = L := by
      simp [commit_learn, hguard, hmem]
    refine ⟨by rw [h1, h1], ?_⟩
    rw [h1]
    exact List.count_eq_one_of_mem hnd hmem
  · have h1 : commit_learn L k m s =
        updateLearned L k m (sortedSpeciesSet (s :: L k m)) := by
      simp [commit_learn, hguard, hmem]
    have happ : (commit_learn L k m s) k m = sortedSpeciesSet (s :: L k m) := by
      rw [h1]; simp [updateLearned]
    have hsmem : s ∈ (commit_learn L k m s) k m := by
      rw [happ, mem_sortedSpeciesSet]; exact List.mem_cons_self _ _
    constructor
    · rw [commit_learn, if_neg hguard]
      simp only [hsmem, if_pos]
    · rw [happ]
      exact List.count_eq_one_of_mem (nodup_sortedSpeciesSet _)
        (by rw [mem_sortedSpeciesSet]; exact List.mem_cons_self _ _)

/-- The empty learned store. -/
def emptyLearned : Learned := fun _ _ => []

/-- Witness for `commit_learn_idempotent` at a concrete input. -/
theorem commit_learn_idempotent_witness :
    (("ROUTE101" : String) ≠ "" ∧ ("PIKACHU" : String) ≠ "" ∧
      (emptyLearned "ROUTE101" "GRASS").Nodup) ∧
    (commit_learn (commit_learn emptyLearned "ROUTE101" "GRASS" "PIKACHU")
        "ROUTE101" "GRASS" "PIKACHU" =
      commit_learn emptyLearned "ROUTE101" "GRASS" "PIKACHU" ∧
    ((commit_learn emptyLearned "ROUTE101" "GRASS" "PIKACHU")
        "ROUTE101" "GRASS").count "PIKACHU" = 1) :=
  ⟨⟨by decide, by decide, by decide⟩,
   commit_learn_idempotent emptyLearned "ROUTE101" "GRASS" "PIKACHU"
     (by decide) (by decide) (by decide)⟩

/-!  ROM merge/prune reconciliation (`_merge_rom_into_learned`,
`plugins/ProfOak/shiny_quota.py` lines 459-483). -/

/-- The four method buckets `_rom_table_summary_for_current` always
reports (and the prune loop iterates over). -/
inductive EncMethod
  | GRASS
  | SURF
  | ROCK_SMASH
  | ROD
deriving DecidableEq

/-- The merge step of `_merge_rom_into_learned` for one method bucket:
`ss = set(per.get(meth, [])); ss.update(lst); if len(ss) != before:
per[meth] = sorted(ss)`.  The bucket is rewritten (to the sorted union)
exactly when some ROM species was not already present. -/
def mergeRomBucket (romList bucket : List String) : List String :=
  if romList.all (fun x => x ∈ bucket.dedup) then bucket
  else sortedSpeciesSet (bucket ++ romList)

/-- Embedding of `_merge_rom_into_learned` restricted to one map key:
merge every method's ROM species into the learned bucket, then (when
`PRUNE_LEARNED_WITH_ROM`) empty the bucket of every method whose ROM
summary is empty (`if per.get(meth): per[meth] = []`). -/
def merge_rom_into_learned (summary per : EncMethod → List String) :
    EncMethod → List String :=
  fun meth =>
    let merged := mergeRomBucket (summary meth) (per meth)
    if PRUNE_LEARNED_WITH_ROM && (summary meth).isEmpty then
      if merged.isEmpty then merged else []
    else merged

/-- C5: reconciliation merges every method's authoritative (ROM) species
into the learned store, and for any method the ROM summary reports as
empty the learned entries are removed, so previously learned species for
such a method do not survive. -/
theorem reconcile_merges_and_prunes (summary per : EncMethod → List String)
    (meth : EncMethod) (s : String) :
    (s ∈ summary meth → s ∈ merge_rom_into_learned summary per meth) ∧
    (summary meth = [] → merge_rom_into_learned summary per meth = []) := by
  constructor
  · intro hmem
    have hne : (summary meth).isEmpty = false := by
      cases h : summary meth with
      | nil => rw [h] at hmem; cases hmem
      | cons a l => simp [List.isEmpty]
    simp only [merge_rom_into_learned, hne, Bool.and_false, if_neg,
      Bool.false_eq_true, not_false_iff]
    simp only [mergeRomBucket]
    split
    · next hall =>
      have := List.all_eq_true.mp hall s hmem
      simpa [List.mem_dedup] using this
    · rw [mem_sortedSpeciesSet, List.mem_append]
      exact Or.inr hmem
  · intro hempty
    have hm : mergeRomBucket (summary meth) (per meth) = per meth := by
      rw [hempty]
      simp [mergeRomBucket]
    show (if PRUNE_LEARNED_WITH_ROM && (summary meth).isEmpty then
        (if (mergeRomBucket (summary meth) (per meth)).isEmpty then
          mergeRomBucket (summary meth) (per meth) else []) else
        mergeRomBucket (summary meth) (per meth)) = []
    rw [hm, hempty]
    simp only [List.isEmpty_nil, PRUNE_LEARNED_WITH_ROM, Bool.and_self, if_true]
    cases hp : per meth with
    | nil => simp
    | cons a l => simp

/-- A concrete ROM summary for the witness: GRASS has PIKACHU, SURF is
known-empty. -/
def summaryW : EncMethod → List String :=
  fun m => match m with
  | .GRASS => ["PIKACHU"]
  | _ => []

/-- A concrete learned store slice for the witness: SURF had learned
MAGIKARP (stale), GRASS had RATTATA. -/
def perW : EncMethod → List String :=
  fun m => match m with
  | .GRASS => ["RATTATA"]
  | .SURF => ["MAGIKARP"]
  | _ => []

/-- Witness for `reconcile_merges_and_prunes`: PIKACHU is merged into the
GRASS bucket, and the stale SURF bucket is pruned to empty. -/
theorem reconcile_merges_and_prunes_witness :
    ("PIKACHU" ∈ summaryW EncMethod.GRASS ∧
      "PIKACHU" ∈ merge_rom_into_learned summaryW perW EncMethod.GRASS) ∧
    (summaryW EncMethod.SURF = [] ∧
      merge_rom_into_learned summaryW perW EncMethod.SURF = []) :=
  ⟨⟨by decide,
    (reconcile_merges_and_prunes summaryW perW EncMethod.GRASS "PIKACHU").1
      (by decide)⟩,
   ⟨rfl,
    (reconcile_merges_and_prunes summaryW perW EncMethod.SURF "PIKACHU").2 rfl⟩⟩

/-!  Quota evaluation state machine (`plugins/shiny_quota.py`). -/

/-- The plugin state relevant to quota evaluation and deferred
navigation: `_navigate_deferred`, `livingdex_enabled`,
`owned_counts_global`, `required_families_current`, plus whether the
navigator collaborator is importable (`_invoke_navigator` returns a
generator). -/
structure QuotaState where
  navigateDeferred : Bool
  livingdex : Bool
  owned : String → Nat
  entries : List FamilyEntry
  navAvailable : Bool

/-- The observable outcome of one `_maybe_pause_if_quota_met` call. -/
inductive PauseOutcome
  | noAction
  | deferNav
  | navDispatch
  | quotaHit
deriving DecidableEq

/-- Embedding of `_maybe_pause_if_quota_met` (`plugins/shiny_quota.py`
lines 508-549): no entries → no action; deficits → log only; quota met →
defer while in battle (set `_navigate_deferred`), else dispatch the
navigator generator (falling back to `_hit_quota` when unavailable). -/
def maybe_pause_if_quota_met (st : QuotaState) (inBattle : Bool) :
    QuotaState × PauseOutcome :=
  if st.entries.isEmpty then (st, .noAction)
  else if (deficitsOf st.livingdex st.owned st.entries).isEmpty then
    if PAUSE_ACTION = "navigate" then
      if inBattle then ({st with navigateDeferred := true}, .deferNav)
      else if st.navAvailable then (st, .navDispatch) else (st, .quotaHit)
    else (st, .quotaHit)
  else (st, .noAction)

/-- Embedding of `_run_deferred_navigation` (`plugins/shiny_quota.py`
lines 329-336).  The returned number counts invocations of
`_invoke_navigator` (navigation handoffs dispatched). -/
def run_deferred_navigation (st : QuotaState) : QuotaState × Nat :=
  if st.navigateDeferred = false then (st, 0)
  else
    let cleared := {st with navigateDeferred := false}
    if PAUSE_ACTION = "navigate" then (cleared, 1) else (cleared, 0)

/-- `n` consecutive quota-met evaluations delivered while a battle is in
progress (`_maybe_pause_if_quota_met(in_battle=True)` from
`on_battle_started` / `on_pokemon_caught`). -/
def metSignalsInBattle (st : QuotaState) : Nat → QuotaState
  | 0 => st
  | n + 1 => (maybe_pause_if_quota_met (metSignalsInBattle st n) true).1

theorem metSignalsInBattle_deferred (st : QuotaState)
    (hne : ¬st.entries.isEmpty = true)
    (hmet : (deficitsOf st.livingdex st.owned st.entries).isEmpty = true) :
    ∀ n : Nat, metSignalsInBattle st (n + 1) = {st with navigateDeferred := true} := by
  intro n
  induction n with
  | zero =>
    show (maybe_pause_if_quota_met st true).1 = _
    simp [maybe_pause_if_quota_met, hne, hmet, PAUSE_ACTION]
  | succ k ih =>
    show (maybe_pause_if_quota_met (metSignalsInBattle st (k + 1)) true).1 = _
    rw [ih]
    simp [maybe_pause_if_quota_met, hne, hmet, PAUSE_ACTION]

/-- C3: at most one handoff is pending at a time.  Any positive number of
consecutive quota-met signals delivered during a battle results in
exactly one navigation handoff dispatched when the battle ends, and a
further battle-ended signal dispatches none. -/
theorem single_handoff_after_battle (st : QuotaState) (n : Nat)
    (hne : ¬st.entries.isEmpty = true)
    (hmet : (deficitsOf st.livingdex st.owned st.entries).isEmpty = true) :
    (run_deferred_navigation (metSignalsInBattle st (n + 1))).2 = 1 ∧
    (run_deferred_navigation
      (run_deferred_navigation (metSignalsInBattle st (n + 1))).1).2 = 0 := by
  rw [metSignalsInBattle_deferred st hne hmet n]
  constructor
  · simp [run_deferred_navigation, PAUSE_ACTION]
  · simp [run_deferred_navigation, PAUSE_ACTION]

/-- A concrete quota-met state for the C3 witness: one single-member
family entry, already owned. -/
def quotaMetState : QuotaState :=
  ⟨false, false, (fun _ => 1), [⟨"A", {"A"}, 1⟩], true⟩

/-- Witness for `single_handoff_after_battle`: three quota-met signals in
battle, then two battle-ended signals — exactly one dispatch. -/
theorem single_handoff_after_battle_witness :
    (¬quotaMetState.entries.isEmpty = true ∧
      (deficitsOf quotaMetState.livingdex quotaMetState.owned
        quotaMetState.entries).isEmpty = true) ∧
    ((run_deferred_navigation (metSignalsInBattle quotaMetState 3)).2 = 1 ∧
      (run_deferred_navigation
        (run_deferred_navigation (metSignalsInBattle quotaMetState 3)).1).2 = 0) :=
  ⟨⟨by decide, by decide⟩,
   single_handoff_after_battle quotaMetState 2 (by decide) (by decide)⟩

/-!  ProfOak quota action (`plugins/ProfOak/shiny_quota.py`
lines 530-541 and 646-698). -/

/-- Embedding of `_rebuild_requirements_cache`
(`plugins/ProfOak/shiny_quota.py` lines 530-541): group the required
species of the route by family root, with `need = |members|` in
living-dex mode and 1 otherwise.  `famRoot` models
`_family_root_index_for_species_name` (a lookup into external species
data). -/
def requiredFamiliesProf (living : Bool) (famRoot : String → Nat)
    (route : Finset String) : Finset (Nat × Nat × Finset String) :=
  (route.image famRoot).image (fun fam =>
    let members := route.filter (fun s => famRoot s = fam)
    (fam, if living then members.card else 1, members))

/-- Embedding of `_status_tuple` (`plugins/ProfOak/shiny_quota.py`
lines 646-656): (have, total) over family entries in living-dex mode,
else over the raw route set. -/
def statusTuple (living : Bool) (fams : Finset (Nat × Nat × Finset String))
    (route ownedSet : Finset String) : Nat × Nat :=
  if living = true ∧ fams.Nonempty then
    (fams.sum (fun e =>
        min ((e.2.2.filter (fun s => s ∈ ownedSet)).card) e.2.1),
     fams.sum (fun e => e.2.1))
  else ((route ∩ ownedSet).card, route.card)

/-- The action dispatched by `_maybe_quota_action`. -/
inductive QuotaActionRes
  | noAction
  | testNotify
  | navNotify
  | toManual
deriving DecidableEq

/-- Embedding of `_maybe_quota_action` (`plugins/ProfOak/shiny_quota.py`
lines 687-698): no action unless `total > 0` and `have ≥ total`;
otherwise the action configured by `ON_QUOTA`. -/
def maybe_quota_action (status : Nat × Nat) : QuotaActionRes :=
  if status.2 = 0 ∨ status.1 < status.2 then .noAction
  else if ON_QUOTA = "TEST" then .testNotify
  else if ON_QUOTA = "NAVIGATOR" then .navNotify
  else .toManual

/-- C8: when the required-species source is EMPTY, the requirement set is
empty and no quota-met action is dispatched — in the ProfOak module the
selection is empty, the family cache is empty, the status total is 0 and
`_maybe_quota_action` does nothing; in `plugins/shiny_quota.py`,
`_maybe_pause_if_quota_met` with no requirement entries returns
immediately with no action and an unchanged state. -/
theorem empty_source_no_quota_action
    (romRead : Option (Finset String)) (staticSet learnedSet : Finset String)
    (living : Bool) (letters ownedSet : Finset String) (famRoot : String → Nat)
    (st : QuotaState) (b : Bool)
    (hsrc : (selectRequirements romRead staticSet learnedSet).2 = ReqSource.EMPTY)
    (hst : st.entries = []) :
    (selectRequirements romRead staticSet learnedSet).1 = ∅ ∧
    expandUnownIfNeeded living letters
      (selectRequirements romRead staticSet learnedSet).1 = ∅ ∧
    requiredFamiliesProf living famRoot
      (expandUnownIfNeeded living letters
        (selectRequirements romRead staticSet learnedSet).1) = ∅ ∧
    maybe_quota_action (statusTuple living
      (requiredFamiliesProf living famRoot
        (expandUnownIfNeeded living letters
          (selectRequirements romRead staticSet learnedSet).1))
      (expandUnownIfNeeded living letters
        (selectRequirements romRead staticSet learnedSet).1)
      ownedSet) = QuotaActionRes.noAction ∧
    maybe_pause_if_quota_met st b = (st, PauseOutcome.noAction) := by
  have hsel : (selectRequirements romRead staticSet learnedSet).1 = ∅ := by
    by_cases h1 : (PREFER_ROM_WHEN_AVAILABLE && romRead.isSome) = true
    · exfalso
      rw [selectRequirements, if_pos h1] at hsrc
      exact ReqSource.noConfusion hsrc
    · by_cases h2 : staticSet.Nonempty
      · exfalso
        rw [selectRequirements, if_neg h1, if_pos h2] at hsrc
        exact ReqSource.noConfusion hsrc
      · by_cases h3 : learnedSet.Nonempty
        · exfalso
          rw [selectRequirements, if_neg h1, if_neg h2, if_pos h3] at hsrc
          exact ReqSource.noConfusion hsrc
        · rw [selectRequirements, if_neg h1, if_neg h2, if_neg h3]
  have hexp : expandUnownIfNeeded living letters
      (selectRequirements romRead staticSet learnedSet).1 = ∅ := by
    rw [hsel]
    simp [expandUnownIfNeeded]
  have hfam : requiredFamiliesProf living famRoot
      (expandUnownIfNeeded living letters
        (selectRequirements romRead staticSet learnedSet).1) = ∅ := by
    rw [hexp]
    simp [requiredFamiliesProf]
  refine ⟨hsel, hexp, hfam, ?_, ?_⟩
  · rw [hfam, hexp]
    simp [statusTuple, maybe_quota_action]
  · rw [maybe_pause_if_quota_met]
    simp [hst]

/-- Witness for `empty_source_no_quota_action`: ROM unreadable, no static
table, no learned data, no requirement entries. -/
theorem empty_source_no_quota_action_witness :
    ((selectRequirements none ∅ ∅).2 = ReqSource.EMPTY ∧
      (⟨false, false, (fun _ => 0), [], true⟩ : QuotaState).entries = []) ∧
    maybe_quota_action (statusTuple false
      (requiredFamiliesProf false (fun _ => 0)
        (expandUnownIfNeeded false ∅ (selectRequirements none ∅ ∅).1))
      (expandUnownIfNeeded false ∅ (selectRequirements none ∅ ∅).1)
      ∅) = QuotaActionRes.noAction ∧
    maybe_pause_if_quota_met ⟨false, false, (fun _ => 0), [], true⟩ true =
      (⟨false, false, (fun _ => 0), [], true⟩, PauseOutcome.noAction) :=
  ⟨⟨by decide, rfl⟩,
   (empty_source_no_quota_action none ∅ ∅ false ∅ ∅ (fun _ => 0)
      ⟨false, false, (fun _ => 0), [], true⟩ true (by decide) rfl).2.2.2⟩

/-!  Navigator (`plugins/ProfOak/navigator.py`). -/

/-- A map identifier: (map group, map number). -/
def MapId : Type := Nat × Nat

instance : DecidableEq MapId := instDecidableEqProd

/-- One entry of the route-order JSON (`emerald_route_order.json`):
well-formed group/number, display name, optional explicit coordinate
(`_extract_group_number` / `_extract_coords`). -/
structure RouteEntry where
  group : Nat
  number : Nat
  name : String
  coords : Option (Int × Int)
deriving DecidableEq

/-- Embedding of `_resolve_current_index` for a (group, number) pair
(`plugins/ProfOak/navigator.py` lines 114-120): the index of the first
route entry with matching group and number. -/
def resolveIndex (order : List RouteEntry) (m : MapId) : Option Nat :=
  order.findIdx? (fun e => e.group == m.1 && e.number == m.2)

/-- Cyclic forward distance in route order: `(j - i) % L`
(Python `%` on a positive modulus, i.e. `Int.emod`). -/
def forwardDistance (L i j : Int) : Int := (j - i) % L

/-- A warp destination reachable from the current map, as returned by
`_list_all_warps_from_current`: destination map and local warp tile. -/
structure WarpDest where
  dest : MapId
  tile : Int × Int
deriving DecidableEq

/-- The departed-map filter of `navigate_after_quota` (lines 625-626):
`if last_map_before_step: warp_dests = [... if (dg, dn) != last]`.
`none` (Python `None`) is falsy, so no filtering happens. -/
def filterDeparted (dests : List WarpDest) (lastMap : Option MapId) :
    List WarpDest :=
  match lastMap with
  | none => dests
  | some lm => dests.filter (fun w => w.dest ≠ lm)

/-- The forward hop distance from the current index to a warp
destination, when the destination resolves in route order. -/
def destFwd (order : List RouteEntry) (L curIdx : Int) (d : MapId) : Option Int :=
  (resolveIndex order d).map (fun di => ((di : Int) - curIdx) % L)

/-- One step of the first selection pass of `navigate_after_quota`
(lines 637-644): keep the qualifying candidate (`0 < fwd ≤ target_span`)
with the smallest forward hop. -/
def firstPassStep (order : List RouteEntry) (L curIdx span : Int)
    (best : Option (Int × MapId)) (w : WarpDest) : Option (Int × MapId) :=
  match destFwd order L curIdx w.dest with
  | none => best
  | some fwd =>
    if 0 < fwd ∧ fwd ≤ span then
      match best with
      | none => some (fwd, w.dest)
      | some b => if fwd < b.1 then some (fwd, w.dest) else best
    else best

/-- The first selection pass (lines 637-644). -/
def firstPass (order : List RouteEntry) (L curIdx span : Int)
    (dests : List WarpDest) (best : Option (Int × MapId)) :
    Option (Int × MapId) :=
  dests.foldl (firstPassStep order L curIdx span) best

/-- One step of the fallback pass (lines 646-653): smallest forward hop
with no qualification. -/
def secondPassStep (order : List RouteEntry) (L curIdx : Int)
    (best : Option (Int × MapId)) (w : WarpDest) : Option (Int × MapId) :=
  match destFwd order L curIdx w.dest with
  | none => best
  | some fwd =>
    match best with
    | none => some (fwd, w.dest)
    | some b => if fwd < b.1 then some (fwd, w.dest) else best

/-- The fallback selection pass (lines 646-653). -/
def secondPass (order : List RouteEntry) (L curIdx : Int)
    (dests : List WarpDest) (best : Option (Int × MapId)) :
    Option (Int × MapId) :=
  dests.foldl (secondPassStep order L curIdx) best

/-- Embedding of the intermediate-hop selection of `navigate_after_quota`
(lines 634-653), applied to the (already departed-filtered) warp
destination list: first pass over qualifying candidates, second pass as
fallback. -/
def selectIntermediate (order : List RouteEntry) (curIdx tgtIdx : Nat)
    (dests : List WarpDest) : Option (Int × MapId) :=
  let L : Int := order.length
  let span := forwardDistance L curIdx tgtIdx
  match firstPass order L curIdx span dests none with
  | some b => some b
  | none => secondPass order L curIdx dests none

/-- A warp destination qualifies for the first pass when its forward hop
is in `(0, span]`. -/
def Qualifies (order : List RouteEntry) (L curIdx span : Int) (w : WarpDest) :
    Prop :=
  ∃ f, destFwd order L curIdx w.dest = some f ∧ 0 < f ∧ f ≤ span

theorem firstPassStep_cases (order : List RouteEntry) (L curIdx span : Int)
    (best : Option (Int × MapId)) (w : WarpDest) :
    firstPassStep order L curIdx span best w = best ∨
    ∃ f, destFwd order L curIdx w.dest = some f ∧ 0 < f ∧ f ≤ span ∧
      firstPassStep order L curIdx span best w = some (f, w.dest) := by
  cases hdf : destFwd order L curIdx w.dest with
  | none => exact Or.inl (by simp only [firstPassStep, hdf])
  | some g =>
    by_cases hq : 0 < g ∧ g ≤ span
    · cases best with
      | none =>
        exact Or.inr ⟨g, rfl, hq.1, hq.2, by simp only [firstPassStep, hdf, if_pos hq]⟩
      | some b =>
        by_cases hlt : g < b.1
        · exact Or.inr ⟨g, rfl, hq.1, hq.2,
            by simp only [firstPassStep, hdf, if_pos hq, if_pos hlt]⟩
        · exact Or.inl (by simp only [firstPassStep, hdf, if_pos hq, if_neg hlt])
    · exact Or.inl (by simp only [firstPassStep, hdf, if_neg hq])

theorem firstPassStep_noninc (order : List RouteEntry) (L curIdx span : Int)
    (b : Int × MapId) (w : WarpDest) :
    ∃ b', firstPassStep order L curIdx span (some b) w = some b' ∧ b'.1 ≤ b.1 := by
  cases hdf : destFwd order L curIdx w.dest with
  | none => exact ⟨b, by simp only [firstPassStep, hdf], le_refl _⟩
  | some g =>
    by_cases hq : 0 < g ∧ g ≤ span
    · by_cases hlt : g < b.1
      · exact ⟨(g, w.dest), by simp only [firstPassStep, hdf, if_pos hq, if_pos hlt],
          le_of_lt hlt⟩
      · exact ⟨b, by simp only [firstPassStep, hdf, if_pos hq, if_neg hlt], le_refl _⟩
    · exact ⟨b, by simp only [firstPassStep, hdf, if_neg hq], le_refl _⟩

theorem firstPassStep_caps (order : List RouteEntry) (L curIdx span : Int)
    (best : Option (Int × MapId)) (w : WarpDest) (g : Int)
    (hdf : destFwd order L curIdx w.dest = some g) (hg0 : 0 < g) (hgs : g ≤ span) :
    ∃ b', firstPassStep order L curIdx span best w = some b' ∧ b'.1 ≤ g := by
  cases best with
  | none =>
    exact ⟨(g, w.dest), by simp only [firstPassStep, hdf, if_pos (And.intro hg0 hgs)],
      le_refl _⟩
  | some b =>
    by_cases hlt : g < b.1
    · exact ⟨(g, w.dest),
        by simp only [firstPassStep, hdf, if_pos (And.intro hg0 hgs), if_pos hlt],
        le_refl _⟩
    · exact ⟨b,
        by simp only [firstPassStep, hdf, if_pos (And.intro hg0 hgs), if_neg hlt],
        le_of_not_lt hlt⟩

theorem firstPass_source (order : List RouteEntry) (L curIdx span : Int)
    (dests : List WarpDest) :
    ∀ best f d, firstPass order L curIdx span dests best = some (f, d) →
      best = some (f, d) ∨
      ∃ w ∈ dests, w.dest = d ∧ destFwd order L curIdx w.dest = some f ∧
        0 < f ∧ f ≤ span := by
  induction dests with
  | nil => intro best f d h; exact Or.inl h
  | cons w rest ih =>
    intro best f d h
    rw [firstPass, List.foldl_cons] at h
    rcases ih (firstPassStep order L curIdx span best w) f d h with h1 | h1
    · rcases firstPassStep_cases order L curIdx span best w with h2 | ⟨g, hdf, hg0, hgs, h2⟩
      · exact Or.inl (h2 ▸ h1)
      · rw [h2] at h1
        obtain ⟨hf, hd⟩ := Prod.mk.injEq .. |>.mp (Option.some.inj h1)
        exact Or.inr ⟨w, List.mem_cons_self _ _, hd, hf ▸ hdf, hf ▸ hg0, hf ▸ hgs⟩
    · obtain ⟨w', hw', rest'⟩ := h1
      exact Or.inr ⟨w', List.mem_cons_of_mem _ hw', rest'⟩

theorem firstPass_le_best (order : List RouteEntry) (L curIdx span : Int)
    (dests : List WarpDest) :
    ∀ b f d, firstPass order L curIdx span dests (some b) = some (f, d) →
      f ≤ b.1 := by
  induction dests with
  | nil =>
    intro b f d h
    rw [firstPass, List.foldl_nil] at h
    obtain ⟨hf, _⟩ := Prod.mk.injEq .. |>.mp (Option.some.inj h)
    rw [← hf]
  | cons w rest ih =>
    intro b f d h
    rw [firstPass, List.foldl_cons] at h
    obtain ⟨b', hb', hle⟩ := firstPassStep_noninc order L curIdx span b w
    rw [hb'] at h
    exact le_trans (ih b' f d h) hle

theorem firstPass_minimal (order : List RouteEntry) (L curIdx span : Int)
    (dests : List WarpDest) :
    ∀ best f d, firstPass order L curIdx span dests best = some (f, d) →
      ∀ w ∈ dests, ∀ g, destFwd order L curIdx w.dest = some g →
        0 < g → g ≤ span → f ≤ g := by
  induction dests with
  | nil => intro _ _ _ _ w hw; cases hw
  | cons w0 rest ih =>
    intro best f d h w hw g hdf hg0 hgs
    rw [firstPass, List.foldl_cons] at h
    rcases List.mem_cons.mp hw with rfl | hw'
    · obtain ⟨b', hb', hle⟩ :=
        firstPassStep_caps order L curIdx span best w g hdf hg0 hgs
      rw [hb'] at h
      exact le_trans (firstPass_le_best order L curIdx span rest b' f d h) hle
    · exact ih (firstPassStep order L curIdx span best w0) f d h w hw' g hdf hg0 hgs

theorem firstPass_isSome_of_best (order : List RouteEntry) (L curIdx span : Int)
    (dests : List WarpDest) :
    ∀ b, (firstPass order L curIdx span dests (some b)).isSome = true := by
  induction dests with
  | nil => intro b; rw [firstPass, List.foldl_nil]; rfl
  | cons w rest ih =>
    intro b
    rw [firstPass, List.foldl_cons]
    obtain ⟨b', hb', _⟩ := firstPassStep_noninc order L curIdx span b w
    rw [hb']
    exact ih b'

theorem firstPass_isSome_of_qualifying (order : List RouteEntry)
    (L curIdx span : Int) (dests : List WarpDest) :
    ∀ best, (∃ w ∈ dests, Qualifies order L curIdx span w) →
      (firstPass order L curIdx span dests best).isSome = true := by
  induction dests with
  | nil => rintro best ⟨w, hw, _⟩; cases hw
  | cons w0 rest ih =>
    rintro best ⟨w, hw, hq⟩
    rw [firstPass, List.foldl_cons]
    rcases List.mem_cons.mp hw with rfl | hw'
    · obtain ⟨f, hdf, hf0, hfs⟩ := hq
      obtain ⟨b', hb', _⟩ :=
        firstPassStep_caps order L curIdx span best w f hdf hf0 hfs
      rw [hb']
      exact firstPass_isSome_of_best order L curIdx span rest b'
    · exact ih (firstPassStep order L curIdx span best w0) ⟨w, hw', hq⟩

theorem secondPassStep_noninc (order : List RouteEntry) (L curIdx : Int)
    (b : Int × MapId) (w : WarpDest) :
    ∃ b', secondPassStep order L curIdx (some b) w = some b' ∧ b'.1 ≤ b.1 := by
  cases hdf : destFwd order L curIdx w.dest with
  | none => exact ⟨b, by simp only [secondPassStep, hdf], le_refl _⟩
  | some g =>
    by_cases hlt : g < b.1
    · exact ⟨(g, w.dest), by simp only [secondPassStep, hdf, if_pos hlt], le_of_lt hlt⟩
    · exact ⟨b, by simp only [secondPassStep, hdf, if_neg hlt], le_refl _⟩

theorem secondPassStep_caps (order : List RouteEntry) (L curIdx : Int)
    (best : Option (Int × MapId)) (w : WarpDest) (g : Int)
    (hdf : destFwd order L curIdx w.dest = some g) :
    ∃ b', secondPassStep order L curIdx best w = some b' ∧ b'.1 ≤ g := by
  cases best with
  | none => exact ⟨(g, w.dest), by simp only [secondPassStep, hdf], le_refl _⟩
  | some b =>
    by_cases hlt : g < b.1
    · exact ⟨(g, w.dest), by simp only [secondPassStep, hdf, if_pos hlt], le_refl _⟩
    · exact ⟨b, by simp only [secondPassStep, hdf, if_neg hlt], le_of_not_lt hlt⟩

theorem secondPassStep_cases (order : List RouteEntry) (L curIdx : Int)
    (best : Option (Int × MapId)) (w : WarpDest) :
    secondPassStep order L curIdx best w = best ∨
    ∃ f, destFwd order L curIdx w.dest = some f ∧
      secondPassStep order L curIdx best w = some (f, w.dest) := by
  cases hdf : destFwd order L curIdx w.dest with
  | none => exact Or.inl (by simp only [secondPassStep, hdf])
  | some g =>
    cases best with
    | none => exact Or.inr ⟨g, rfl, by simp only [secondPassStep, hdf]⟩
    | some b =>
      by_cases hlt : g < b.1
      · exact Or.inr ⟨g, rfl, by simp only [secondPassStep, hdf, if_pos hlt]⟩
      · exact Or.inl (by simp only [secondPassStep, hdf, if_neg hlt])

theorem secondPass_source (order : List RouteEntry) (L curIdx : Int)
    (dests : List WarpDest) :
    ∀ best f d, secondPass order L curIdx dests best = some (f, d) →
      best = some (f, d) ∨
      ∃ w ∈ dests, w.dest = d ∧ destFwd order L curIdx w.dest = some f := by
  induction dests with
  | nil => intro best f d h; exact Or.inl h
  | cons w rest ih =>
    intro best f d h
    rw [secondPass, List.foldl_cons] at h
    rcases ih (secondPassStep order L curIdx best w) f d h with h1 | h1
    · rcases secondPassStep_cases order L curIdx best w with h2 | ⟨g, hdf, h2⟩
      · exact Or.inl (h2 ▸ h1)
      · rw [h2] at h1
        obtain ⟨hf, hd⟩ := Prod.mk.injEq .. |>.mp (Option.some.inj h1)
        exact Or.inr ⟨w, List.mem_cons_self _ _, hd, hf ▸ hdf⟩
    · obtain ⟨w', hw', rest'⟩ := h1
      exact Or.inr ⟨w', List.mem_cons_of_mem _ hw', rest'⟩

theorem secondPass_le_best (order : List RouteEntry) (L curIdx : Int)
    (dests : List WarpDest) :
    ∀ b f d, secondPass order L curIdx dests (some b) = some (f, d) →
      f ≤ b.1 := by
  induction dests with
  | nil =>
    intro b f d h
    rw [secondPass, List.foldl_nil] at h
    obtain ⟨hf, _⟩ := Prod.mk.injEq .. |>.mp (Option.some.inj h)
    rw [← hf]
  | cons w rest ih =>
    intro b f d h
    rw [secondPass, List.foldl_cons] at h
    obtain ⟨b', hb', hle⟩ := secondPassStep_noninc order L curIdx b w
    rw [hb'] at h
    exact le_trans (ih b' f d h) hle

theorem secondPass_minimal (order : List RouteEntry) (L curIdx : Int)
    (dests : List WarpDest) :
    ∀ best f d, secondPass order L curIdx dests best = some (f, d) →
      ∀ w ∈ dests, ∀ g, destFwd order L curIdx w.dest = some g → f ≤ g := by
  induction dests with
  | nil => intro _ _ _ _ w hw; cases hw
  | cons w0 rest ih =>
    intro best f d h w hw g hdf
    rw [secondPass, List.foldl_cons] at h
    rcases List.mem_cons.mp hw with rfl | hw'
    · obtain ⟨b', hb', hle⟩ := secondPassStep_caps order L curIdx best w g hdf
      rw [hb'] at h
      exact le_trans (secondPass_le_best order L curIdx rest b' f d h) hle
    · exact ih (secondPassStep order L curIdx best w0) f d h w hw' g hdf

theorem secondPass_isSome_of_best (order : List RouteEntry) (L curIdx : Int)
    (dests : List WarpDest) :
    ∀ b, (secondPass order L curIdx dests (some b)).isSome = true := by
  induction dests with
  | nil => intro b; rw [secondPass, List.foldl_nil]; rfl
  | cons w rest ih =>
    intro b
    rw [secondPass, List.foldl_cons]
    obtain ⟨b', hb', _⟩ := secondPassStep_noninc order L curIdx b w
    rw [hb']
    exact ih b'

theorem secondPass_isSome_of_resolvable (order : List RouteEntry) (L curIdx : Int)
    (dests : List WarpDest) :
    ∀ best, (∃ w ∈ dests, ∃ g, destFwd order L curIdx w.dest = some g) →
      (secondPass order L curIdx dests best).isSome = true := by
  induction dests with
  | nil => rintro best ⟨w, hw, _⟩; cases hw
  | cons w0 rest ih =>
    rintro best ⟨w, hw, g, hdf⟩
    rw [secondPass, List.foldl_cons]
    rcases List.mem_cons.mp hw with rfl | hw'
    · obtain ⟨b', hb', _⟩ := secondPassStep_caps order L curIdx best w g hdf
      rw [hb']
      exact secondPass_isSome_of_best order L curIdx rest b'
    · exact ih (secondPassStep order L curIdx best w0) ⟨w, hw', g, hdf⟩

/-- Arithmetic core of C4: a forward hop with `0 < fwd ≤ span` strictly
decreases the cyclic forward distance to the target. -/
theorem hop_decreases_distance (L c d t : Int) (hL : 0 < L)
    (h0 : 0 < (d - c) % L) (hs : (d - c) % L ≤ (t - c) % L) :
    (t - d) % L < (t - c) % L := by
  have hspan_lt : (t - c) % L < L := Int.emod_lt_of_pos _ hL
  have hkey : (t - d) % L = (t - c) % L - (d - c) % L := by
    have h1 : t - d = (t - c) - (d - c) := by ring
    rw [h1, Int.sub_emod]
    exact Int.emod_eq_of_lt (by linarith) (by linarith)
  rw [hkey]
  linarith

/-- C4 counterexample input: route order A, B, C with current map A
(index 0) and target B (index 1). -/
def orderABC : List RouteEntry :=
  [⟨0, 0, "A", none⟩, ⟨0, 1, "B", none⟩, ⟨0, 2, "C", none⟩]

/-- C4 counterexample input: the only reachable warp destination is C
(index 2), which does not reduce the forward distance to the target. -/
def warpToC : WarpDest := ⟨(0, 2), (4, 4)⟩

/-- C4 counterexample: with route order [A, B, C], current A, target B,
and only a warp to C available (and no warp to the target B), the
fallback pass of `navigate_after_quota` still selects C as the
intermediate hop, although C's cyclic forward distance to the target (2)
is NOT strictly smaller than the current one (1).  So the claim's
"strictly smaller forward-distance" property fails for the selected
hop. -/
theorem intermediate_hop_not_always_closer :
    selectIntermediate orderABC 0 1 [warpToC] = some (2, ((0, 2) : MapId)) ∧
    forwardDistance (orderABC.length) 2 1 = 2 ∧
    forwardDistance (orderABC.length) 0 1 = 1 ∧
    ¬ forwardDistance (orderABC.length) 2 1 < forwardDistance (orderABC.length) 0 1 := by
  refine ⟨?_, by decide, by decide, by decide⟩
  decide

/-- C4 amended: when no warp leads directly to the target, the
intermediate-hop selection of `navigate_after_quota` (applied to the
warp destinations with the just-departed map filtered out):
(1) never considers the departed map;
(2) whenever some destination qualifies (forward hop in `(0, span]`,
equivalently a strictly smaller cyclic forward distance to the target),
it selects a qualifying destination — whose forward distance to the
target is strictly smaller than the current one — with the smallest
forward hop among all qualifying candidates;
(3) when no destination qualifies but some destination resolves in route
order, a fallback selects the destination with the smallest forward hop
regardless of qualification (so the selected hop need not be closer to
the target). -/
theorem intermediate_hop_selection (order : List RouteEntry) (curIdx tgtIdx : Nat)
    (dests : List WarpDest) (lastMap : Option MapId) (hL : order ≠ []) :
    (∀ lm, lastMap = some lm →
      ∀ w ∈ filterDeparted dests lastMap, w.dest ≠ lm) ∧
    ((∃ w ∈ filterDeparted dests lastMap,
        Qualifies order order.length curIdx
          (forwardDistance order.length curIdx tgtIdx) w) →
      ∃ f d, selectIntermediate order curIdx tgtIdx
          (filterDeparted dests lastMap) = some (f, d) ∧
        (∃ w ∈ filterDeparted dests lastMap, w.dest = d) ∧
        (∃ di, resolveIndex order d = some di ∧
          f = forwardDistance order.length curIdx di ∧ 0 < f ∧
          f ≤ forwardDistance order.length curIdx tgtIdx ∧
          forwardDistance order.length di tgtIdx <
            forwardDistance order.length curIdx tgtIdx) ∧
        (∀ w ∈ filterDeparted dests lastMap, ∀ g,
          destFwd order order.length curIdx w.dest = some g →
          0 < g → g ≤ forwardDistance order.length curIdx tgtIdx → f ≤ g)) ∧
    ((¬ ∃ w ∈ filterDeparted dests lastMap,
        Qualifies order order.length curIdx
          (forwardDistance order.length curIdx tgtIdx) w) →
      (∃ w ∈ filterDeparted dests lastMap, ∃ g,
        destFwd order order.length curIdx w.dest = some g) →
      ∃ f d, selectIntermediate order curIdx tgtIdx
          (filterDeparted dests lastMap) = some (f, d) ∧
        (∃ w ∈ filterDeparted dests lastMap, w.dest = d) ∧
        destFwd order order.length curIdx d = some f ∧
        (∀ w ∈ filterDeparted dests lastMap, ∀ g,
          destFwd order order.length curIdx w.dest = some g → f ≤ g)) := by
  have hL0 : (0 : Int) < order.length := by
    have := List.length_pos.mpr hL
    exact_mod_cast this
  refine ⟨?_, ?_, ?_⟩
  · rintro lm rfl w hw
    rw [filterDeparted] at hw
    exact of_decide_eq_true ((List.mem_filter.mp hw).2)
  · intro hq
    have hsome := firstPass_isSome_of_qualifying order order.length curIdx
      (forwardDistance order.length curIdx tgtIdx) (filterDeparted dests lastMap)
      none hq
    obtain ⟨⟨f, d⟩, hfp⟩ := Option.isSome_iff_exists.mp hsome
    refine ⟨f, d, ?_, ?_, ?_, ?_⟩
    · rw [selectIntermediate]
      show (match firstPass order order.length curIdx
          (forwardDistance order.length curIdx tgtIdx)
          (filterDeparted dests lastMap) none with
        | some b => some b
        | none => secondPass order order.length curIdx
            (filterDeparted dests lastMap) none) = some (f, d)
      rw [hfp]
    · rcases firstPass_source order order.length curIdx _ _ none f d hfp with h | h
      · cases h
      · obtain ⟨w, hw, hwd, _⟩ := h
        exact ⟨w, hw, hwd⟩
    · rcases firstPass_source order order.length curIdx _ _ none f d hfp with h | h
      · cases h
      · obtain ⟨w, hw, hwd, hdf, hf0, hfs⟩ := h
        rw [hwd] at hdf
        rw [destFwd] at hdf
        cases hres : resolveIndex order d with
        | none => rw [hres] at hdf; cases hdf
        | some di =>
          rw [hres] at hdf
          have hf : f = ((di : Int) - curIdx) % (order.length : Int) :=
            (Option.some.inj hdf).symm
          refine ⟨di, rfl, hf, hf0, hfs, ?_⟩
          have h0 : 0 < ((di : Int) - curIdx) % (order.length : Int) := hf ▸ hf0
          have hs : ((di : Int) - curIdx) % (order.length : Int) ≤
              ((tgtIdx : Int) - curIdx) % (order.length : Int) := hf ▸ hfs
          exact hop_decreases_distance (order.length) curIdx di tgtIdx hL0 h0 hs
    · intro w hw g hdf hg0 hgs
      exact firstPass_minimal order order.length curIdx
        (forwardDistance order.length curIdx tgtIdx)
        (filterDeparted dests lastMap) none f d hfp w hw g hdf hg0 hgs
  · intro hnq hres
    have hfpnone : firstPass order order.length curIdx
        (forwardDistance order.length curIdx tgtIdx)
        (filterDeparted dests lastMap) none = none := by
      cases hfp : firstPass order order.length curIdx
          (forwardDistance order.length curIdx tgtIdx)
          (filterDeparted dests lastMap) none with
      | none => rfl
      | some b =>
        exfalso
        rcases firstPass_source order order.length curIdx _ _ none b.1 b.2
            (by rw [hfp]) with h | h
        · cases h
        · obtain ⟨w, hw, _, hdf, hf0, hfs⟩ := h
          exact hnq ⟨w, hw, b.1, hdf, hf0, hfs⟩
    have hsome := secondPass_isSome_of_resolvable order order.length curIdx
      (filterDeparted dests lastMap) none hres
    obtain ⟨⟨f, d⟩, hsp⟩ := Option.isSome_iff_exists.mp hsome
    refine ⟨f, d, ?_, ?_, ?_, ?_⟩
    · rw [selectIntermediate]
      show (match firstPass order order.length curIdx
          (forwardDistance order.length curIdx tgtIdx)
          (filterDeparted dests lastMap) none with
        | some b => some b
        | none => secondPass order order.length curIdx
            (filterDeparted dests lastMap) none) = some (f, d)
      rw [hfpnone, hsp]
    · rcases secondPass_source order order.length curIdx _ none f d hsp with h | h
      · cases h
      · obtain ⟨w, hw, hwd, _⟩ := h
        exact ⟨w, hw, hwd⟩
    · rcases secondPass_source order order.length curIdx _ none f d hsp with h | h
      · cases h
      · obtain ⟨w, hw, hwd, hdf⟩ := h
        rw [← hwd]
        exact hdf
    · intro w hw g hdf
      exact secondPass_minimal order order.length curIdx
        (filterDeparted dests lastMap) none f d hsp w hw g hdf

/-- Route order [A, B, C, D] for the C4 witness scenario. -/
def orderABCD : List RouteEntry :=
  [⟨0, 0, "A", none⟩, ⟨0, 1, "B", none⟩, ⟨0, 2, "C", none⟩, ⟨0, 3, "D", none⟩]

/-- Warp destinations from B for the C4 witness: one to C and one back
to the just-departed A. -/
def warpsFromB : List WarpDest := [⟨(0, 2), (3, 3)⟩, ⟨(0, 0), (1, 1)⟩]

/-- Witness for `intermediate_hop_selection`, part (2): from B (index 1)
toward D (index 3), with warps to C and back to A and A just departed,
the warp to C (which reduces the forward distance from 2 to 1) is
selected. -/
theorem intermediate_hop_selection_witness :
    ∃ f d, selectIntermediate orderABCD 1 3
        (filterDeparted warpsFromB (some ((0 : Nat), (0 : Nat)))) = some (f, d) ∧
      (∃ w ∈ filterDeparted warpsFromB (some ((0 : Nat), (0 : Nat))), w.dest = d) ∧
      (∃ di, resolveIndex orderABCD d = some di ∧
        f = forwardDistance orderABCD.length 1 di ∧ 0 < f ∧
        f ≤ forwardDistance orderABCD.length 1 3 ∧
        forwardDistance orderABCD.length di 3 <
          forwardDistance orderABCD.length 1 3) ∧
      (∀ w ∈ filterDeparted warpsFromB (some ((0 : Nat), (0 : Nat))), ∀ g,
        destFwd orderABCD orderABCD.length 1 w.dest = some g →
        0 < g → g ≤ forwardDistance orderABCD.length 1 3 → f ≤ g) :=
  (intermediate_hop_selection orderABCD 1 3 warpsFromB (some ((0 : Nat), (0 : Nat)))
      (by decide)).2.1
    ⟨⟨(0, 2), (3, 3)⟩, by decide, 1, by decide, by decide, by decide⟩

/-!  The warp-stepping loop of `navigate_after_quota`
(`plugins/ProfOak/navigator.py` lines 584-719). -/

/-- The environment a warp-stepping iteration observes.  Per-iteration
fields model the answers of the external collaborators at the `i`-th
pass through the `while True` loop: the current map id read at the top
of the loop and again after the in-loop direct `navigate_to` attempt,
the warp tiles leading directly to the target
(`_list_warp_tiles_to_target`), all warps from the current map
(`_list_all_warps_from_current`), the context fallback of
`_resolve_current_index`, the warp tiles toward a chosen step map, and
the player position (used to filter out the warp tile the player is
standing on). -/
structure NavEnv where
  order : List RouteEntry
  target : MapId
  tgtIdx : Nat
  curAtTop : Nat → Option MapId
  curAfterDirect : Nat → Option MapId
  directWarps : Nat → List (Int × Int)
  allWarps : Nat → List WarpDest
  ctxIdx : Nat → Option Nat
  warpTilesToStep : Nat → MapId → List (Int × Int)
  playerPos : Nat → Option (Int × Int)

/-- `_resolve_current_index(cur_ids, order, context)` at iteration `i`:
match the (group, number) pair against the route order, falling back to
the context attributes. -/
def resolveCur (env : NavEnv) (i : Nat) : Option Nat :=
  match env.curAtTop i with
  | some gn =>
    match resolveIndex env.order gn with
    | some k => some k
    | none => env.ctxIdx i
  | none => env.ctxIdx i

/-- The player-position filter on the warp list (line 686):
`[xy for xy in warp_list if pos_now is None or xy != pos_now]`. -/
def posFilter (pos : Option (Int × Int)) (l : List (Int × Int)) :
    List (Int × Int) :=
  match pos with
  | none => l
  | some p => l.filter (fun xy => xy ≠ p)

/-- The control outcome of one pass through the `while True` loop body:
`done` models `break` (current map equals target), `aborted` models the
`return` on index-resolution failure, `next last'` models `continue`
(or falling to the bottom of the body) carrying the updated
`last_map_before_step`. -/
inductive IterStep
  | done
  | aborted
  | next (last : Option MapId)

/-- One pass through the body of the warp-stepping `while True` loop
(lines 586-719), following its branch structure: break when on the
target (checked at the top and again after the in-loop direct attempt);
with no direct warp, `continue` when no warps exist at all, abort when
the current index cannot be resolved, `continue` when no intermediate
step can be selected or no warp tile leads to it; otherwise attempt the
warp tiles (which sets `last_map_before_step = cur_ids`) and loop. -/
def warpIter (env : NavEnv) (last : Option MapId) (i : Nat) : IterStep :=
  if env.curAtTop i = some env.target then .done
  else if env.curAfterDirect i = some env.target then .done
  else
    let dw := env.directWarps i
    if dw.isEmpty then
      let wd0 := env.allWarps i
      if wd0.isEmpty then .next last
      else
        let wd := filterDeparted wd0 last
        match resolveCur env i with
        | none => .aborted
        | some curIdx =>
          match selectIntermediate env.order curIdx env.tgtIdx wd with
          | none => .next last
          | some b =>
            let wl := posFilter (env.playerPos i) (env.warpTilesToStep i b.2)
            if wl.isEmpty then .next last
            else .next (env.curAtTop i)
    else
      let wl := posFilter (env.playerPos i) dw
      if wl.isEmpty then .next last
      else .next (env.curAtTop i)

/-- The state of the loop after a bounded number of passes. -/
inductive RunState
  | finished
  | aborted
  | running
deriving DecidableEq

/-- Run up to `fuel` passes of the warp-stepping loop, starting at
iteration `i` with departed-map memory `last`.  `.running` means the
loop is still going after `fuel` passes. -/
def warpRun (env : NavEnv) : Nat → Nat → Option MapId → RunState
  | 0, _, _ => .running
  | fuel + 1, i, last =>
    match warpIter env last i with
    | .done => .finished
    | .aborted => .aborted
    | .next l' => warpRun env fuel (i + 1) l'

/-- The warp-stepping loop terminates: some finite number of passes
suffices to leave the loop (by break or by the abort return). -/
def WarpTerminates (env : NavEnv) : Prop :=
  ∃ fuel, warpRun env fuel 0 none ≠ RunState.running

/-- The current map never reads as the target map. -/
def NeverOnTarget (env : NavEnv) : Prop :=
  ∀ i, env.curAtTop i ≠ some env.target

/-- A concrete environment in which the player is stuck: the current map
never changes, never equals the target, and no warps are available. -/
def stuckEnv : NavEnv where
  order := [⟨0, 0, "A", none⟩, ⟨0, 1, "B", none⟩]
  target := (0, 1)
  tgtIdx := 1
  curAtTop := fun _ => some (0, 0)
  curAfterDirect := fun _ => some (0, 0)
  directWarps := fun _ => []
  allWarps := fun _ => []
  ctxIdx := fun _ => some 0
  warpTilesToStep := fun _ _ => []
  playerPos := fun _ => none

theorem warpIter_stuck (last : Option MapId) (i : Nat) :
    warpIter stuckEnv last i = IterStep.next last := rfl

theorem warpRun_stuck : ∀ fuel i (last : Option MapId),
    warpRun stuckEnv fuel i last = RunState.running := by
  intro fuel
  induction fuel with
  | zero => intro i last; rfl
  | succ k ih =>
    intro i last
    show (match warpIter stuckEnv last i with
      | IterStep.done => RunState.finished
      | IterStep.aborted => RunState.aborted
      | IterStep.next l' => warpRun stuckEnv k (i + 1) l') = RunState.running
    rw [warpIter_stuck]
    exact ih (i + 1) last

/-- C7 counterexample: in the stuck environment the current map never
equals the target, yet the warp-stepping loop never exits — it has no
retry budget and iterates unboundedly, contradicting the claimed bounded
termination. -/
theorem warp_loop_unbounded_when_stuck :
    NeverOnTarget stuckEnv ∧ ¬ WarpTerminates stuckEnv := by
  constructor
  · intro i
    show some ((0 : Nat), (0 : Nat)) ≠ some ((0 : Nat), (1 : Nat))
    decide
  · rintro ⟨fuel, h⟩
    exact h (warpRun_stuck fuel 0 none)

theorem warpIter_done_of_target (env : NavEnv) (last : Option MapId) (i : Nat)
    (h : env.curAtTop i = some env.target) : warpIter env last i = IterStep.done := by
  rw [warpIter, if_pos h]

theorem warpRun_exits_of_target (env : NavEnv) :
    ∀ fuel i (last : Option MapId),
      (∃ k, k < fuel ∧ env.curAtTop (i + k) = some env.target) →
      warpRun env fuel i last ≠ RunState.running := by
  intro fuel
  induction fuel with
  | zero =>
    rintro i last ⟨k, hk, _⟩
    exact absurd hk (Nat.not_lt_zero k)
  | succ n ih =>
    rintro i last ⟨k, hk, htar⟩
    show (match warpIter env last i with
      | IterStep.done => RunState.finished
      | IterStep.aborted => RunState.aborted
      | IterStep.next l' => warpRun env n (i + 1) l') ≠ RunState.running
    cases hit : warpIter env last i with
    | done => simp
    | aborted => simp
    | next l' =>
      cases k with
      | zero =>
        rw [Nat.add_zero] at htar
        rw [warpIter_done_of_target env last i htar] at hit
        cases hit
      | succ m =>
        simp only []
        exact ih (i + 1) l'
          ⟨m, by omega, by rw [show i + 1 + m = i + (m + 1) by omega]; exact htar⟩

/-- C7 amended: the warp-stepping loop exits when the current map reads
as the target map at some iteration (and also on the index-resolution
abort); but it has no retry budget of its own — when the current map
never becomes the target it iterates unboundedly
(`warp_loop_unbounded_when_stuck`).  The bounded proceed-anyway budgets
exist only around it: two initial direct attempts and two final-approach
attempts. -/
theorem warp_loop_terminates_on_arrival (env : NavEnv)
    (h : ∃ k, env.curAtTop k = some env.target) : WarpTerminates env := by
  obtain ⟨k, hk⟩ := h
  exact ⟨k + 1, warpRun_exits_of_target env (k + 1) 0 none
    ⟨k, Nat.lt_succ_self k, by simpa using hk⟩⟩

/-- Environment for the termination witness: the current map already
equals the target. -/
def arrivedEnv : NavEnv := { stuckEnv with curAtTop := fun _ => some (0, 1) }

/-- Witness for `warp_loop_terminates_on_arrival`. -/
theorem warp_loop_terminates_on_arrival_witness :
    arrivedEnv.curAtTop 0 = some arrivedEnv.target ∧ WarpTerminates arrivedEnv :=
  ⟨rfl, warp_loop_terminates_on_arrival arrivedEnv ⟨0, rfl⟩⟩

/-!  Species family computation (`_family_species_names_from_name`,
`plugins/shiny_quota.py` lines 412-470). -/

/-- A species record of the externally supplied species graph, with the
fields `_family_species_names_from_name` reads: dex index, name, the
`family` index list, the `evolves_from` back reference and the forward
evolution targets. -/
structure SpeciesRec where
  index : Nat
  name : String
  family : List Nat
  evolvesFrom : Option Nat
  evolutions : List Nat
deriving DecidableEq

/-- The supplied species graph. -/
abbrev Dex : Type := List SpeciesRec

/-- `_lookup_species_by_name`: first record with the given name. -/
def lookupByName (g : Dex) (n : String) : Option SpeciesRec :=
  List.find? (fun sp => sp.name == n) g

/-- `_lookup_species_by_index`: first record with the given index. -/
def lookupByIndex (g : Dex) (i : Nat) : Option SpeciesRec :=
  List.find? (fun sp => sp.index == i) g

/-- The climb-to-root loop (lines 440-445), with its `safety < 50`
bound as fuel. -/
def climbRoot (g : Dex) : SpeciesRec → Nat → SpeciesRec
  | sp, 0 => sp
  | sp, fuel + 1 =>
    match sp.evolvesFrom with
    | none => sp
    | some prev =>
      match lookupByIndex g prev with
      | none => sp
      | some p => climbRoot g p fuel

/-- The stack walk over `evolutions` (lines 447-467), visited-set keyed
by index, fuelled (the Python loop terminates because `visited` grows
within a finite graph). -/
def collectFamily (g : Dex) :
    Nat → List SpeciesRec → List Nat → Finset String → Finset String
  | 0, _, _, names => names
  | _ + 1, [], _, names => names
  | fuel + 1, node :: rest, visited, names =>
    if node.index ∈ visited then collectFamily g fuel rest visited names
    else
      let names' := if node.name ≠ "" then insert (strUpper node.name) names
                    else names
      let children := node.evolutions.filterMap (lookupByIndex g)
      collectFamily g fuel (children ++ rest) (node.index :: visited) names'

/-- The names collected from a record's `family` index list
(lines 428-435). -/
def famNamesOf (g : Dex) (sp : SpeciesRec) : Finset String :=
  (sp.family.filterMap (fun i =>
    (lookupByIndex g i).bind (fun s2 =>
      if s2.name ≠ "" then some (strUpper s2.name) else none))).toFinset

/-- Embedding of `_family_species_names_from_name`
(`plugins/shiny_quota.py` lines 412-470): `UNOWN-<letter>` is a
singleton family; an unknown name is its own singleton (uppercased);
otherwise the `family` field is preferred, falling back to a
climb-to-root plus evolution walk, and finally to the singleton. -/
def family_species_names_from_name (g : Dex) (species_name : String) :
    Finset String :=
  if strStartsWith species_name "UNOWN-" then {species_name}
  else
    match lookupByName g species_name with
    | none => {strUpper species_name}
    | some sp =>
      if sp.family ≠ [] ∧ famNamesOf g sp ≠ ∅ then famNamesOf g sp
      else
        let root := climbRoot g sp 50
        let names := collectFamily g (g.length * g.length + g.length + 1)
          [root] [] ∅
        if names = ∅ then {strUpper species_name} else names

/-- Well-formedness of the supplied species graph: names are uppercase,
non-empty, not of the synthetic `UNOWN-` form, name and index lookups
round-trip, and the `family` field is a consistent family assignment
(contains the record itself, and all members share the same family
list). -/
structure DexWF (g : Dex) : Prop where
  nameUpper : ∀ sp ∈ g, strUpper sp.name = sp.name
  nameNonempty : ∀ sp ∈ g, sp.name ≠ ""
  noUnownForms : ∀ sp ∈ g, strStartsWith sp.name "UNOWN-" = false
  lookupNameSelf : ∀ sp ∈ g, lookupByName g sp.name = some sp
  lookupIndexSelf : ∀ sp ∈ g, lookupByIndex g sp.index = some sp
  famSelf : ∀ sp ∈ g, sp.index ∈ sp.family
  famCohere : ∀ sp ∈ g, ∀ j ∈ sp.family,
    ∃ t, lookupByIndex g j = some t ∧ t.family = sp.family

theorem mem_famNamesOf (g : Dex) (sp : SpeciesRec) (x : String) :
    x ∈ famNamesOf g sp ↔
      ∃ j ∈ sp.family, ∃ t, lookupByIndex g j = some t ∧
        t.name ≠ "" ∧ x = strUpper t.name := by
  simp only [famNamesOf, List.mem_toFinset, List.mem_filterMap]
  constructor
  · rintro ⟨j, hj, hbind⟩
    cases hlk : lookupByIndex g j with
    | none => rw [hlk] at hbind; cases hbind
    | some t =>
      rw [hlk] at hbind
      simp only [Option.some_bind] at hbind
      by_cases hne : t.name ≠ ""
      · rw [if_pos hne] at hbind
        exact ⟨j, hj, t, hlk, hne, (Option.some.inj hbind).symm⟩
      · rw [if_neg hne] at hbind; cases hbind
  · rintro ⟨j, hj, t, hlk, hne, rfl⟩
    refine ⟨j, hj, ?_⟩
    rw [hlk]
    simp only [Option.some_bind, if_pos hne]

theorem lookupByName_name {g : Dex} {a : String} {sp : SpeciesRec}
    (h : lookupByName g a = some sp) : sp.name = a := by
  have := List.find?_some h
  exact eq_of_beq this

theorem lookupByName_mem {g : Dex} {a : String} {sp : SpeciesRec}
    (h : lookupByName g a = some sp) : sp ∈ g :=
  List.mem_of_find?_eq_some h

theorem lookupByIndex_mem {g : Dex} {i : Nat} {sp : SpeciesRec}
    (h : lookupByIndex g i = some sp) : sp ∈ g :=
  List.mem_of_find?_eq_some h

/-- Under well-formedness, the `family`-field branch of
`_family_species_names_from_name` is always the one taken for a name
that resolves. -/
theorem fsn_eq_famNames (g : Dex) (wf : DexWF g) (a : String)
    (sp : SpeciesRec) (hU : strStartsWith a "UNOWN-" = false)
    (hfind : lookupByName g a = some sp) :
    family_species_names_from_name g a = famNamesOf g sp := by
  have hmem : sp ∈ g := lookupByName_mem hfind
  have hname : sp.name = a := lookupByName_name hfind
  have hfam : sp.family ≠ [] :=
    List.ne_nil_of_mem (wf.famSelf sp hmem)
  have hself : sp.name ∈ famNamesOf g sp := by
    rw [mem_famNamesOf]
    exact ⟨sp.index, wf.famSelf sp hmem, sp, wf.lookupIndexSelf sp hmem,
      wf.nameNonempty sp hmem, (wf.nameUpper sp hmem).symm⟩
  have hne : famNamesOf g sp ≠ ∅ := Finset.ne_empty_of_mem hself
  rw [family_species_names_from_name]
  rw [if_neg (by rw [hU]; exact Bool.false_ne_true)]
  rw [hfind]
  simp only [if_pos (And.intro hfam hne)]

/-- Containment half of C9: the computed family always contains the
queried species itself. -/
theorem fsn_contains_self (g : Dex) (wf : DexWF g) (a : String)
    (ha : strUpper a = a) : a ∈ family_species_names_from_name g a := by
  by_cases hU : strStartsWith a "UNOWN-" = true
  · rw [family_species_names_from_name, if_pos hU]
    exact Finset.mem_singleton_self a
  · have hU' : strStartsWith a "UNOWN-" = false := by
      cases h : strStartsWith a "UNOWN-" with
      | false => rfl
      | true => exact absurd h hU
    cases hfind : lookupByName g a with
    | none =>
      rw [family_species_names_from_name, if_neg hU, hfind, ha]
      exact Finset.mem_singleton_self a
    | some sp =>
      rw [fsn_eq_famNames g wf a sp hU' hfind]
      have hmem : sp ∈ g := lookupByName_mem hfind
      have hname : sp.name = a := lookupByName_name hfind
      rw [mem_famNamesOf]
      refine ⟨sp.index, wf.famSelf sp hmem, sp, wf.lookupIndexSelf sp hmem,
        wf.nameNonempty sp hmem, ?_⟩
      rw [hname, ha]

/-- C9: for every (uppercase) species identifier the computed family
contains the identifier itself, and family membership is symmetric over
a well-formed supplied species graph: if `b ∈ family(a)` then
`a ∈ family(b)`. -/
theorem family_contains_self_and_symmetric (g : Dex) (wf : DexWF g)
    (a b : String) (ha : strUpper a = a) :
    a ∈ family_species_names_from_name g a ∧
    (b ∈ family_species_names_from_name g a →
      a ∈ family_species_names_from_name g b) := by
  refine ⟨fsn_contains_self g wf a ha, ?_⟩
  intro hb
  by_cases hU : strStartsWith a "UNOWN-" = true
  · rw [family_species_names_from_name, if_pos hU] at hb
    rw [Finset.mem_singleton] at hb
    rw [hb]
    exact fsn_contains_self g wf a ha
  · have hU' : strStartsWith a "UNOWN-" = false := by
      cases h : strStartsWith a "UNOWN-" with
      | false => rfl
      | true => exact absurd h hU
    cases hfind : lookupByName g a with
    | none =>
      rw [family_species_names_from_name, if_neg hU, hfind, ha] at hb
      rw [Finset.mem_singleton] at hb
      rw [hb]
      exact fsn_contains_self g wf a ha
    | some sp =>
      rw [fsn_eq_famNames g wf a sp hU' hfind] at hb
      have hmemsp : sp ∈ g := lookupByName_mem hfind
      have hnamesp : sp.name = a := lookupByName_name hfind
      rw [mem_famNamesOf] at hb
      obtain ⟨j, hj, t, hlk, htne, rfl⟩ := hb
      have hmemt : t ∈ g := lookupByIndex_mem hlk
      have htup : strUpper t.name = t.name := wf.nameUpper t hmemt
      rw [htup]
      have htU : strStartsWith t.name "UNOWN-" = false := wf.noUnownForms t hmemt
      have htfind : lookupByName g t.name = some t := wf.lookupNameSelf t hmemt
      rw [fsn_eq_famNames g wf t.name t htU htfind]
      obtain ⟨t', hlk', hfam'⟩ := wf.famCohere sp hmemsp j hj
      have htt : t' = t := Option.some.inj (hlk'.symm.trans hlk)
      rw [htt] at hfam'
      rw [mem_famNamesOf]
      refine ⟨sp.index, ?_, sp, wf.lookupIndexSelf sp hmemsp,
        wf.nameNonempty sp hmemsp, ?_⟩
      · rw [hfam']
        exact wf.famSelf sp hmemsp
      · rw [hnamesp, ha]

/-- A concrete two-species family graph for the C9 witness. -/
def dexW : Dex :=
  [⟨0, "AAA", [0, 1], none, [1]⟩, ⟨1, "BBB", [0, 1], some 0, []⟩]

theorem dexW_wf : DexWF dexW := by
  refine ⟨?_, ?_, ?_, ?_, ?_, ?_, ?_⟩
  · decide
  · decide
  · decide
  · decide
  · decide
  · decide
  · intro sp hsp j hj
    have hfam : sp.family = [0, 1] := by
      simp only [dexW, List.mem_cons, List.not_mem_nil, or_false] at hsp
      rcases hsp with rfl | rfl <;> rfl
    rw [hfam] at hj
    simp only [List.mem_cons, List.not_mem_nil, or_false] at hj
    rcases hj with rfl | rfl
    · exact ⟨⟨0, "AAA", [0, 1], none, [1]⟩, by decide, by rw [hfam]⟩
    · exact ⟨⟨1, "BBB", [0, 1], some 0, []⟩, by decide, by rw [hfam]⟩

/-- Witness for `family_contains_self_and_symmetric` at a concrete
graph. -/
theorem family_contains_self_and_symmetric_witness :
    strUpper "AAA" = "AAA" ∧
    "AAA" ∈ family_species_names_from_name dexW "AAA" ∧
    ("BBB" ∈ family_species_names_from_name dexW "AAA" →
      "AAA" ∈ family_species_names_from_name dexW "BBB") :=
  ⟨by decide,
   (family_contains_self_and_symmetric dexW dexW_wf "AAA" "BBB" (by decide)).1,
   (family_contains_self_and_symmetric dexW dexW_wf "AAA" "BBB" (by decide)).2⟩
